import Mathlib

/-
  Verification of the chunking / vector-store / indexing / similarity-search core
  of the obsidian-vector-search plugin (current source version).

  The TypeScript source is shallowly embedded as follows:
  * JS strings are `List Char`; `String.prototype.slice(a, b)` with `0 ≤ a ≤ b`
    is `jsSlice`; `split('\n')` is `splitNl`; `trim()` is `jsTrim` over the
    common JS whitespace characters.
  * JS numbers that only ever hold non-negative integers are `Nat`; quantities
    that the code can drive negative (the character-chunker cursor, the running
    paragraph-chunk length) are `Int`.  Embedding vectors are `List ℝ`.
  * The in-memory `Map<string, VectorData>` is an insertion-ordered association
    list `Store`; `Map.set` is `storeSet` (in-place overwrite of an existing key,
    append otherwise), deletion of all records of a path is `removeFileVectors`.
  * The persisted `vectors.json` file is `FileState` (absent / unparseable JSON /
    parseable-but-not-an-array / a JSON array of raw records).  A raw record's
    `chunkIndex` field is `Option Int`: `none` models a value for which
    `Number.isFinite` is false; finite JS numbers are modelled as integers.
  * The external embedding service is an oracle giving, per chunk index, the
    vector returned by that `getEmbedding` call (`[]` models every failure path
    of `getEmbedding`, which returns an empty array and never throws).
  * Obsidian's `normalizePath` is an uninterpreted parameter `np`.
  * The character-mode `while` loop of `splitIntoChunks` does not terminate for
    every configuration, so it is embedded with an explicit iteration bound
    (`fuel`); `none` means the loop has not exited within that bound.
-/

namespace VectorSearch

/-- A JS string, as its list of characters. -/
abbrev JStr := List Char

/-- `content.slice(s, e)` for `0 ≤ s`, `0 ≤ e` (the only way the source calls it
on an observable path). -/
def jsSlice (l : JStr) (s e : Nat) : JStr := (l.take e).drop s

/-- Whitespace for `String.prototype.trim` (the characters the source's inputs
can contain). -/
def jsWs (c : Char) : Bool := c = ' ' || c = '\t' || c = '\n' || c = '\r'

/-- `line.trim()`. -/
def jsTrim (l : JStr) : JStr := ((l.dropWhile jsWs).reverse.dropWhile jsWs).reverse

/-- `content.split('\n')`. -/
def splitNl : JStr → List JStr
  | [] => [[]]
  | c :: rest =>
    if c = '\n' then [] :: splitNl rest
    else
      match splitNl rest with
      | [] => [[c]]
      | h :: t => (c :: h) :: t

/-- The `TextChunk` interface of the source. -/
structure TextChunk where
  text : JStr
  startOffset : Nat
  endOffset : Nat
deriving DecidableEq, Repr

/-- One entry of the `paragraphs` array built by paragraph-mode
`splitIntoChunks` (`{ start, end }`; `end` is a reserved word in Lean). -/
structure Para where
  start : Nat
  stop : Nat
deriving DecidableEq, Repr

/-- One step of the line scan that builds the `paragraphs` array: state is
`(offset, paragraphStart, paragraphs)`. -/
def paraStep (st : Nat × Nat × List Para) (line : JStr) : Nat × Nat × List Para :=
  let lineEnd := st.1 + line.length
  if (jsTrim line).length = 0 then
    (lineEnd + 1, lineEnd + 1,
      if st.2.1 < st.1 then st.2.2 ++ [⟨st.2.1, st.1⟩] else st.2.2)
  else
    (lineEnd + 1, st.2.1, st.2.2)

/-- The `paragraphs` array computed by paragraph-mode `splitIntoChunks`. -/
def paragraphsOf (content : JStr) : List Para :=
  let st := (splitNl content).foldl paraStep (0, 0, [])
  if st.2.1 < content.length then st.2.2 ++ [⟨st.2.1, content.length⟩] else st.2.2

/-- One step of the paragraph-accumulation loop.  The current-chunk state
`(chunkStart, chunkEnd, chunkLength)` uses the sentinel `chunkStart === -1`
in the source; it is modelled as `Option`.  `chunkLength` is a JS number the
code adds a (possibly conceptually signed) gap to, hence `Int`. -/
def chunkStep (content : JStr) (chunkSize : Nat)
    (st : Option (Nat × Nat × Int) × List TextChunk) (p : Para) :
    Option (Nat × Nat × Int) × List TextChunk :=
  let paragraphText := jsSlice content p.start p.stop
  if (jsTrim paragraphText).length = 0 then st
  else
    match st.1 with
    | none => (some (p.start, p.stop, (paragraphText.length : Int)), st.2)
    | some (cStart, cEnd, cLen) =>
      let gap : Int := (p.start : Int) - (cEnd : Int)
      let nextLength : Int := cLen + gap + (paragraphText.length : Int)
      if (chunkSize : Int) < nextLength ∧ 0 < cLen then
        (some (p.start, p.stop, (paragraphText.length : Int)),
          st.2 ++ [⟨jsSlice content cStart cEnd, cStart, cEnd⟩])
      else
        (some (cStart, p.stop, nextLength), st.2)

/-- The trailing `if (chunkStart !== -1) chunks.push(...)` of paragraph mode. -/
def flushChunks (content : JStr) (st : Option (Nat × Nat × Int) × List TextChunk) :
    List TextChunk :=
  match st.1 with
  | none => st.2
  | some (cStart, cEnd, _) => st.2 ++ [⟨jsSlice content cStart cEnd, cStart, cEnd⟩]

/-- Paragraph-mode `splitIntoChunks` (the `chunkingStrategy === 'paragraph'`
branch, for `chunkSize ≠ 0`). -/
def splitParagraphMode (chunkSize : Nat) (content : JStr) : List TextChunk :=
  flushChunks content ((paragraphsOf content).foldl (chunkStep content chunkSize) (none, []))

/-- Character-mode `splitIntoChunks`: the `while (i < content.length)` loop with
an explicit iteration bound.  `none` means the loop has not exited after `fuel`
iterations (so `(∀ fuel, … = none)` is non-termination).  The cursor `i` is a JS
number and goes negative when `chunkOverlap > chunkSize`; on that (never
terminating) path no chunk list is ever returned, so the `toNat` clamps are
unobservable. -/
def charChunksFuel (chunkSize chunkOverlap : Nat) (content : JStr) :
    Nat → Int → Option (List TextChunk)
  | fuel, i =>
    if i < (content.length : Int) then
      match fuel with
      | 0 => none
      | fuel' + 1 =>
        let startOffset := i.toNat
        let endOffset := min (startOffset + chunkSize) content.length
        match charChunksFuel chunkSize chunkOverlap content fuel'
            (i + ((chunkSize : Int) - (chunkOverlap : Int))) with
        | none => none
        | some rest => some (⟨jsSlice content startOffset endOffset, startOffset, endOffset⟩ :: rest)
    else some []

/-- The `chunkingStrategy` setting. -/
inductive ChunkStrategy
  | character
  | paragraph
deriving DecidableEq

/-- The chunking-relevant part of the settings object. -/
structure ChunkSettings where
  chunkSize : Nat
  chunkOverlap : Nat
  chunkingStrategy : ChunkStrategy

/-- `splitIntoChunks(content)`: `chunkSize === 0` short-circuit, then the
strategy dispatch.  The `fuel` bound is only consumed by the character-mode
loop. -/
def splitIntoChunksFuel (s : ChunkSettings) (content : JStr) (fuel : Nat) :
    Option (List TextChunk) :=
  if s.chunkSize = 0 then some [⟨content, 0, content.length⟩]
  else if s.chunkingStrategy = ChunkStrategy.paragraph then
    some (splitParagraphMode s.chunkSize content)
  else charChunksFuel s.chunkSize s.chunkOverlap content fuel 0

/-- The character-mode chunk list for a configuration on which the loop
terminates (it does whenever `chunkOverlap < chunkSize`; `content.length + 1`
iterations always suffice then). -/
def charChunks (chunkSize chunkOverlap : Nat) (content : JStr) : List TextChunk :=
  (charChunksFuel chunkSize chunkOverlap content (content.length + 1) 0).getD []

/-- The `VectorData` interface of the source.  `chunkIndex` is a JS number whose
reachable values are integers (the loop index on insertion, a loaded value or
the positional fallback on load). -/
structure VectorData where
  path : String
  embedding : List ℝ
  title : String
  chunkIndex : Int
  startLine : Nat
  endLine : Nat

/-- The in-memory `Map<string, VectorData>` as an insertion-ordered association
list. -/
abbrev Store := List (String × VectorData)

/-- `Map.set(k, v)`: overwrite in place if the key is present (JS `Map` keeps
the original insertion position), else append. -/
def storeSet (s : Store) (k : String) (v : VectorData) : Store :=
  if s.any (fun e => e.1 = k) then
    s.map (fun e => if e.1 = k then (k, v) else e)
  else s ++ [(k, v)]

/-- `Array.from(map.values())`. -/
def storeValues (s : Store) : List VectorData := s.map (fun e => e.2)

/-- Number of records whose `path` field equals `p`. -/
def storeCountPath (s : Store) (p : String) : Nat :=
  (s.filter (fun e => e.2.path = p)).length

/-- The `` `${path}#${i}` `` identity key. -/
def recordKey (path : String) (i : Int) : String := path ++ "#" ++ toString i

/-- `removeFileVectors(filePath)`: delete every entry whose value's `path`
equals the normalized path (the delete-while-iterating loop of the source has
exactly this filtering effect on a JS `Map`). -/
def removeFileVectors (np : String → String) (filePath : String) (s : Store) : Store :=
  let normalizedPath := np filePath
  s.filter (fun e => ¬ (e.2.path = normalizedPath))

/-- `content.slice(0, chunk.startOffset).split('\n').length - 1`. -/
def startLineOf (content : JStr) (c : TextChunk) : Nat :=
  (splitNl (content.take c.startOffset)).length - 1

/-- `startLine + chunk.text.split('\n').length`. -/
def endLineOf (content : JStr) (c : TextChunk) : Nat :=
  startLineOf content c + (splitNl c.text).length

/-- `` `${file.basename} (chunk ${i+1}/${chunks.length})` ``. -/
def mkTitle (basename : String) (i total : Nat) : String :=
  basename ++ " (chunk " ++ toString (i + 1) ++ "/" ++ toString total ++ ")"

/-- The `vectorData` object built for chunk `i` (in both `processFile` and
`buildVectorIndex`). -/
def chunkRecord (np : String → String) (filePath basename : String) (content : JStr)
    (total : Nat) (c : TextChunk) (i : Nat) (embedding : List ℝ) : VectorData :=
  { path := np filePath
    embedding := embedding
    title := mkTitle basename i total
    chunkIndex := (i : Int)
    startLine := startLineOf content c
    endLine := endLineOf content c }

/-- The insertion loop shared by `processFile` and (per file) `buildVectorIndex`:
for each chunk, call the embedding service; skip the chunk if the result is
empty, otherwise `set` the record under `` `${path}#${i}` ``.  `embed i` is the
vector the service returned for chunk `i` (`[]` on any failure).
`toString ((i : Nat) : Int) = toString i` definitionally, so `recordKey` builds
the same string the source does. -/
def insertChunks (np : String → String) (filePath basename : String) (content : JStr)
    (chunks : List TextChunk) (embed : Nat → List ℝ) (s : Store) : Store :=
  chunks.enum.foldl (fun acc ic =>
    if (embed ic.1).length = 0 then acc
    else storeSet acc (recordKey (np filePath) (ic.1 : Int))
      (chunkRecord np filePath basename content chunks.length ic.2 ic.1 (embed ic.1))) s

/-- The store mutation performed by `processFile` (requirements satisfied,
file read, chunks computed): remove the file's existing vectors, then run the
insertion loop. -/
def processFileStore (np : String → String) (filePath basename : String) (content : JStr)
    (chunks : List TextChunk) (embed : Nat → List ℝ) (s : Store) : Store :=
  insertChunks np filePath basename content chunks embed
    (removeFileVectors np filePath s)

/-- A record as serialized in `vectors.json` (or in legacy `settings.vectors`):
`chunkIndex` is `none` when `Number.isFinite(v.chunkIndex)` is false. -/
structure RawVectorData where
  path : String
  embedding : List ℝ
  title : String
  chunkIndex : Option Int
  startLine : Nat
  endLine : Nat

/-- What `v` looks like once serialized. -/
def toRaw (v : VectorData) : RawVectorData :=
  { path := v.path, embedding := v.embedding, title := v.title,
    chunkIndex := some v.chunkIndex, startLine := v.startLine, endLine := v.endLine }

/-- The persisted `vectors.json` backing file. -/
inductive FileState
  | absent
  | unparseable
  | nonArray
  | valid (records : List RawVectorData)

/-- The persistent state the embedded operations touch: the in-memory store,
the backing file, and the legacy `settings.vectors` array. -/
structure PluginState where
  store : Store
  file : FileState
  settingsVectors : List RawVectorData

/-- The map entry `loadVectorStore` builds for the record at position `i`:
key recomputed from `path` and `chunkIndex`, with positional fallback when
`chunkIndex` is not a finite number; the stored value gets the same
`chunkIndex`. -/
def loadRecord (iv : Nat × RawVectorData) : String × VectorData :=
  let ci : Int := match iv.2.chunkIndex with
    | some n => n
    | none => (iv.1 : Int)
  (recordKey iv.2.path ci,
   { path := iv.2.path, embedding := iv.2.embedding, title := iv.2.title,
     chunkIndex := ci, startLine := iv.2.startLine, endLine := iv.2.endLine })

/-- `new Map(vectors.map((v, index) => …))`: later duplicate keys overwrite
earlier ones in place. -/
def mapOfRaw (vectors : List RawVectorData) : Store :=
  (vectors.enum.map loadRecord).foldl (fun s kv => storeSet s kv.1 kv.2) []

/-- The `vectors` array `loadVectorStore` ends up building its map from. -/
def loadVectors (file : FileState) (settingsVectors : List RawVectorData) :
    List RawVectorData :=
  match file with
  | .valid l => l
  | .unparseable => []
  | .nonArray => []
  | .absent => if 0 < settingsVectors.length then settingsVectors else []

/-- `loadVectorStore()`.  Returns the new state and whether `console.error` was
called (only the `JSON.parse` failure is caught and logged; a parseable payload
that is not an array is silently ignored).  When the file is absent and legacy
`settings.vectors` is non-empty, the legacy records are migrated: written to the
backing file, loaded into the map, and cleared from the settings. -/
def loadVectorStoreOp (st : PluginState) : PluginState × Bool :=
  match st.file with
  | .absent =>
    if 0 < st.settingsVectors.length then
      ({ store := mapOfRaw st.settingsVectors,
         file := .valid st.settingsVectors,
         settingsVectors := [] }, false)
    else ({ st with store := mapOfRaw [] }, false)
  | .unparseable => ({ st with store := mapOfRaw [] }, true)
  | .nonArray => ({ st with store := mapOfRaw [] }, false)
  | .valid l => ({ st with store := mapOfRaw l }, false)

/-- `processFile` end to end (happy path): mutate the store, then
`saveVectorStore()` overwrites the backing file with the current record set. -/
def processFileOp (np : String → String) (filePath basename : String) (content : JStr)
    (chunks : List TextChunk) (embed : Nat → List ℝ) (st : PluginState) : PluginState :=
  let s' := processFileStore np filePath basename content chunks embed st.store
  { st with store := s', file := .valid ((storeValues s').map toRaw) }

/-- A markdown file as `buildVectorIndex` sees it: path, basename, content and
the chunk list `splitIntoChunks` produced for that content. -/
structure FileDoc where
  path : String
  basename : String
  content : JStr
  chunks : List TextChunk

/-- The inner chunk loop of `buildVectorIndex` for one file.  `cancel k` is the
value of the cooperative `cancelIndexing` flag the `k`-th time it is read; the
`Nat` in the result threads that read counter.  Returns `true` iff the run was
canceled at one of this loop's checkpoints. -/
def buildChunksLoop (np : String → String) (embed : Nat → List ℝ) (cancel : Nat → Bool)
    (f : FileDoc) : List (Nat × TextChunk) → Nat → Store → Store × Bool × Nat
  | [], cp, s => (s, false, cp)
  | ic :: rest, cp, s =>
    if cancel cp then (s, true, cp + 1)
    else
      let s' :=
        if (embed ic.1).length = 0 then s
        else storeSet s (recordKey (np f.path) (ic.1 : Int))
          (chunkRecord np f.path f.basename f.content f.chunks.length ic.2 ic.1 (embed ic.1))
      buildChunksLoop np embed cancel f rest (cp + 1) s'

/-- The outer file loop of `buildVectorIndex`; `embedOf j i` is the embedding
returned for chunk `i` of the `j`-th file. -/
def buildFilesLoop (np : String → String) (embedOf : Nat → Nat → List ℝ)
    (cancel : Nat → Bool) : List (Nat × FileDoc) → Nat → Store → Store × Bool × Nat
  | [], cp, s => (s, false, cp)
  | jf :: rest, cp, s =>
    if cancel cp then (s, true, cp + 1)
    else
      match buildChunksLoop np (embedOf jf.1) cancel jf.2 jf.2.chunks.enum (cp + 1) s with
      | (s', true, cp') => (s', true, cp')
      | (s', false, cp') => buildFilesLoop np embedOf cancel rest cp' s'

/-- `buildVectorIndex()` (requirements satisfied, not already indexing): clear
the in-memory store, run the file loop; on cancellation reload from the backing
file and leave it otherwise untouched, on completion persist the new record
set.  Returns the new state and whether the run was canceled. -/
def buildVectorIndexOp (np : String → String) (embedOf : Nat → Nat → List ℝ)
    (cancel : Nat → Bool) (files : List FileDoc) (st : PluginState) : PluginState × Bool :=
  let r := buildFilesLoop np embedOf cancel files.enum 0 []
  if r.2.1 then
    ((loadVectorStoreOp { st with store := r.1 }).1, true)
  else
    ({ st with store := r.1, file := .valid ((storeValues r.1).map toRaw) }, false)

/-- `cosineSimilarity`'s magnitude subterm `Math.sqrt(vec.reduce((acc, val) =>
acc + val * val, 0))`. -/
noncomputable def magnitude (vec : List ℝ) : ℝ :=
  Real.sqrt (vec.foldl (fun acc val => acc + val * val) 0)

/-- `cosineSimilarity`'s dot-product subterm (`vec1.reduce((acc, val, i) =>
acc + val * vec2[i], 0)`; it is only reached when the two lengths are equal, so
the paired fold is the same sum). -/
noncomputable def dotProd (vec1 vec2 : List ℝ) : ℝ :=
  (vec1.zip vec2).foldl (fun acc p => acc + p.1 * p.2) 0

/-- `cosineSimilarity(vec1, vec2)`. -/
noncomputable def cosineSimilarity (vec1 vec2 : List ℝ) : ℝ :=
  if vec1.length = 0 ∨ vec2.length = 0 ∨ vec1.length ≠ vec2.length then 0
  else if magnitude vec1 = 0 ∨ magnitude vec2 = 0 then 0
  else dotProd vec1 vec2 / (magnitude vec1 * magnitude vec2)

/-- The filtering loop of `performSearch`: score every stored record, keep the
ones at or above the threshold, in store order. -/
noncomputable def searchResults (queryEmbedding : List ℝ) (store : Store)
    (threshold : ℝ) : List (VectorData × ℝ) :=
  (storeValues store).foldl (fun results v =>
    let similarity := cosineSimilarity queryEmbedding v.embedding
    if threshold ≤ similarity then results ++ [(v, similarity)] else results) []

/-- `results.sort((a, b) => b.similarity - a.similarity)`: a stable sort putting
higher scores first. -/
noncomputable def sortResults (results : List (VectorData × ℝ)) : List (VectorData × ℝ) :=
  results.mergeSort (fun a b => decide (b.2 ≤ a.2))

/-- `performSearch(query)`: the early-return guards (short query, empty store,
requirements not met, failed query embedding) yield `none`; otherwise the list
handed to `displayResults` — filter, sort descending, then truncate to
`maxResults`. -/
noncomputable def performSearch (query : JStr) (ready : Bool) (queryEmbedding : List ℝ)
    (store : Store) (threshold : ℝ) (maxResults : Nat) :
    Option (List (VectorData × ℝ)) :=
  if query.length < 3 then none
  else if store.length = 0 then none
  else if ready = false then none
  else if queryEmbedding.length = 0 then none
  else some ((sortResults (searchResults queryEmbedding store threshold)).take maxResults)

/-- Concatenation of a chunk list's texts accounting for a declared per-chunk
overlap of `ov` characters: every chunk after the first contributes its text
minus its first `ov` characters (character mode declares `chunkOverlap`;
paragraph mode declares no overlap). -/
def reconOverlap (ov : Nat) : List TextChunk → JStr
  | [] => []
  | c :: rest => c.text ++ (rest.map (fun d => d.text.drop ov)).flatten

/-- Boolean check that a chunk list's start offsets are non-decreasing. -/
def chunkOffsetsMono : List TextChunk → Bool
  | [] => true
  | [_] => true
  | a :: b :: t => decide (a.startOffset ≤ b.startOffset) && chunkOffsetsMono (b :: t)

/-- Boolean check that a chunk's offsets lie within a document of length
`len`. -/
def chunkInBounds (len : Nat) (c : TextChunk) : Bool :=
  decide (c.startOffset ≤ c.endOffset) && decide (c.endOffset ≤ len)

/- ------------------------------------------------------------------ -/
/- Theorems                                                           -/
/- ------------------------------------------------------------------ -/

/-- C4: `cosineSimilarity` returns `0` whenever either vector is empty or the
lengths differ, and whenever either magnitude is zero; otherwise it returns
`dot(a,b) / (|a| * |b|)`.  It is a total function (never throws). -/
theorem cosineSimilarity_spec (vec1 vec2 : List ℝ) :
    (vec1.length = 0 ∨ vec2.length = 0 ∨ vec1.length ≠ vec2.length →
      cosineSimilarity vec1 vec2 = 0) ∧
    (magnitude vec1 = 0 ∨ magnitude vec2 = 0 → cosineSimilarity vec1 vec2 = 0) ∧
    (vec1.length ≠ 0 → vec2.length ≠ 0 → vec1.length = vec2.length →
      magnitude vec1 ≠ 0 → magnitude vec2 ≠ 0 →
      cosineSimilarity vec1 vec2
        = dotProd vec1 vec2 / (magnitude vec1 * magnitude vec2)) := by
  refine ⟨fun h => ?_, fun h => ?_, fun h1 h2 h3 h4 h5 => ?_⟩
  · unfold cosineSimilarity
    rw [if_pos h]
  · unfold cosineSimilarity
    by_cases hl : vec1.length = 0 ∨ vec2.length = 0 ∨ vec1.length ≠ vec2.length
    · rw [if_pos hl]
    · rw [if_neg hl, if_pos h]
  · unfold cosineSimilarity
    rw [if_neg (by push_neg; exact ⟨h1, h2, h3⟩), if_neg (by push_neg; exact ⟨h4, h5⟩)]

/-- Witness for C4 at the concrete input `vec1 = vec2 = [1]`. -/
theorem cosineSimilarity_spec_witness :
    cosineSimilarity [(1 : ℝ)] [(1 : ℝ)]
      = dotProd [(1 : ℝ)] [(1 : ℝ)] / (magnitude [(1 : ℝ)] * magnitude [(1 : ℝ)]) :=
  (cosineSimilarity_spec [(1 : ℝ)] [(1 : ℝ)]).2.2 (by simp) (by simp) rfl
    (by simp [magnitude]) (by simp [magnitude])

/-- C8 (amended): loading with an absent backing file and no legacy
`settings.vectors` yields an empty store; an unparseable payload logs an error
and yields an empty store; a parseable but non-array payload silently yields an
empty store; an absent file with non-empty legacy `settings.vectors` migrates
those records instead (store built from them, file written, settings cleared).
`loadVectorStoreOp` is a total function (never throws). -/
theorem loadVectorStore_spec (st : PluginState) :
    (st.file = FileState.absent → st.settingsVectors = [] →
      (loadVectorStoreOp st).1.store = [] ∧ (loadVectorStoreOp st).2 = false) ∧
    (st.file = FileState.unparseable →
      (loadVectorStoreOp st).1.store = [] ∧ (loadVectorStoreOp st).2 = true) ∧
    (st.file = FileState.nonArray →
      (loadVectorStoreOp st).1.store = [] ∧ (loadVectorStoreOp st).2 = false) ∧
    (st.file = FileState.absent → st.settingsVectors ≠ [] →
      (loadVectorStoreOp st).1.store = mapOfRaw st.settingsVectors ∧
      (loadVectorStoreOp st).1.file = FileState.valid st.settingsVectors ∧
      (loadVectorStoreOp st).1.settingsVectors = []) := by
  obtain ⟨s, f, sv⟩ := st
  cases f with
  | absent =>
    refine ⟨fun _ hsv => ?_, fun hf => absurd hf (by simp), fun hf => absurd hf (by simp),
      fun _ hsv => ?_⟩
    · subst hsv
      exact ⟨rfl, rfl⟩
    · have hpos : 0 < sv.length := List.length_pos.mpr hsv
      simp only [loadVectorStoreOp]
      rw [if_pos hpos]
      exact ⟨rfl, rfl, rfl⟩
  | unparseable =>
    exact ⟨fun hf => absurd hf (by simp), fun _ => ⟨rfl, rfl⟩,
      fun hf => absurd hf (by simp), fun hf => absurd hf (by simp)⟩
  | nonArray =>
    exact ⟨fun hf => absurd hf (by simp), fun hf => absurd hf (by simp),
      fun _ => ⟨rfl, rfl⟩, fun hf => absurd hf (by simp)⟩
  | valid l =>
    exact ⟨fun hf => absurd hf (by simp), fun hf => absurd hf (by simp),
      fun hf => absurd hf (by simp), fun hf => absurd hf (by simp)⟩

/-- Witness for C8 at a concrete state (unparseable backing file). -/
theorem loadVectorStore_spec_witness :
    (loadVectorStoreOp ⟨[], FileState.unparseable, []⟩).1.store = []
      ∧ (loadVectorStoreOp ⟨[], FileState.unparseable, []⟩).2 = true :=
  (loadVectorStore_spec ⟨[], FileState.unparseable, []⟩).2.1 rfl

/-- A concrete legacy record (for the C8 and C2 counterexamples). -/
def rawA : RawVectorData := ⟨"A.md", [], "A", some 0, 0, 1⟩

/-- Counterexample to C8 as stated: with the backing file absent but legacy
`settings.vectors` non-empty, the loaded store is not empty (the legacy records
are migrated into it). -/
theorem loadVectorStore_absent_counterexample :
    (loadVectorStoreOp ⟨[], FileState.absent, [rawA]⟩).1.store ≠ [] := by
  intro h
  exact absurd (congrArg List.length h) (by decide)

/-- If every embedding call returns an empty vector, the insertion loop inserts
nothing. -/
theorem insertChunks_all_empty (np : String → String) (filePath basename : String)
    (content : JStr) (chunks : List TextChunk) (embed : Nat → List ℝ) (s : Store)
    (h : ∀ i, (embed i).length = 0) :
    insertChunks np filePath basename content chunks embed s = s := by
  unfold insertChunks
  generalize chunks.enum = l
  induction l generalizing s with
  | nil => rfl
  | cons a t ih =>
    rw [List.foldl_cons, if_pos (h a.1)]
    exact ih s

/-- Membership in `removeFileVectors`. -/
theorem removeFileVectors_mem {np : String → String} {p : String} {s : Store}
    {e : String × VectorData} (h : e ∈ removeFileVectors np p s) :
    e ∈ s ∧ ¬ e.2.path = np p := by
  unfold removeFileVectors at h
  have h' := List.mem_filter.mp h
  exact ⟨h'.1, by simpa using h'.2⟩

/-- After removal, no record for the normalized path remains. -/
theorem storeCountPath_remove (np : String → String) (p : String) (s : Store) :
    storeCountPath (removeFileVectors np p s) (np p) = 0 := by
  unfold storeCountPath
  rw [List.length_eq_zero, List.filter_eq_nil_iff]
  intro e he
  simpa using (removeFileVectors_mem he).2

/-- C10: `processFile` removes the document's records before any embedding
call, and skips chunks with empty embeddings; so when every embedding call
fails, re-indexing leaves the store with zero records for the document's path
and persists that shrunken record set (the old records are not restored). -/
theorem processFile_allFail_spec (np : String → String) (filePath basename : String)
    (content : JStr) (chunks : List TextChunk) (embed : Nat → List ℝ) (st : PluginState)
    (h : ∀ i, (embed i).length = 0) :
    (processFileOp np filePath basename content chunks embed st).store
        = removeFileVectors np filePath st.store ∧
    storeCountPath (processFileOp np filePath basename content chunks embed st).store
        (np filePath) = 0 ∧
    (processFileOp np filePath basename content chunks embed st).file
        = FileState.valid ((storeValues
            (removeFileVectors np filePath st.store)).map toRaw) := by
  have hs : processFileStore np filePath basename content chunks embed st.store
      = removeFileVectors np filePath st.store :=
    insertChunks_all_empty np filePath basename content chunks embed _ h
  refine ⟨hs, ?_, ?_⟩
  · show storeCountPath (processFileStore np filePath basename content chunks embed st.store)
        (np filePath) = 0
    rw [hs]
    exact storeCountPath_remove np filePath st.store
  · show FileState.valid ((storeValues
        (processFileStore np filePath basename content chunks embed st.store)).map toRaw) = _
    rw [hs]

/-- A concrete store with one record for path `A.md` (witness data). -/
def vA : VectorData := ⟨"A.md", [1], "A (chunk 1/1)", 0, 0, 1⟩

/-- A one-record store for the C10 witness. -/
def storeA : Store := [(recordKey "A.md" 0, vA)]

/-- Witness for C10 at a concrete one-record state where the single embedding
call fails. -/
theorem processFile_allFail_witness :
    (processFileOp id "A.md" "A" ("ab".toList) [⟨"ab".toList, 0, 2⟩] (fun _ => [])
        ⟨storeA, FileState.valid [], []⟩).store
        = removeFileVectors id "A.md" storeA ∧
    storeCountPath (processFileOp id "A.md" "A" ("ab".toList) [⟨"ab".toList, 0, 2⟩]
        (fun _ => []) ⟨storeA, FileState.valid [], []⟩).store "A.md" = 0 ∧
    (processFileOp id "A.md" "A" ("ab".toList) [⟨"ab".toList, 0, 2⟩] (fun _ => [])
        ⟨storeA, FileState.valid [], []⟩).file
        = FileState.valid ((storeValues (removeFileVectors id "A.md" storeA)).map toRaw) :=
  processFile_allFail_spec id "A.md" "A" ("ab".toList) [⟨"ab".toList, 0, 2⟩] (fun _ => [])
    ⟨storeA, FileState.valid [], []⟩ (fun _ => rfl)

/-- C3: on the failing configuration `chunkSize = 1`, `chunkOverlap = 1` (step
`chunkSize - chunkOverlap = 0`) the character-mode loop of `splitIntoChunks`
never exits, for any iteration bound: the code has no fallback for a
non-positive step, contradicting the specified behavior of advancing by the
full chunk size. -/
theorem charChunks_nonposStep_diverges (fuel : Nat) :
    charChunksFuel 1 1 ('a' :: 'b' :: []) fuel 0 = none := by
  induction fuel with
  | zero => rfl
  | succ n ih =>
    have hstep : charChunksFuel 1 1 ('a' :: 'b' :: []) (n + 1) 0
        = match charChunksFuel 1 1 ('a' :: 'b' :: []) n 0 with
          | none => none
          | some rest => some (⟨['a'], 0, 1⟩ :: rest) := rfl
    rw [hstep, ih]

/-- Counterexample to C6 as stated: in paragraph mode the blank-line gap
between two chunks is dropped, so concatenating the chunk texts (paragraph mode
declares no overlap) does not reconstruct the original text. -/
theorem splitIntoChunks_paragraph_no_reconstruct :
    splitIntoChunksFuel ⟨1, 0, ChunkStrategy.paragraph⟩ ("a\n\nb".toList) 0
        = some (splitParagraphMode 1 ("a\n\nb".toList)) ∧
    reconOverlap 0 (splitParagraphMode 1 ("a\n\nb".toList)) ≠ "a\n\nb".toList :=
  ⟨rfl, by decide⟩

/-- C2 (amended): whenever a full rebuild observes the cancellation flag at a
document or chunk boundary, and no legacy `settings.vectors` migration is
pending (the backing file exists, or the legacy array is empty), the backing
file and settings are left unchanged and the in-memory store is reloaded from
the previously persisted state — never a partial index. -/
theorem buildVectorIndex_cancel_spec (np : String → String) (embedOf : Nat → Nat → List ℝ)
    (cancel : Nat → Bool) (files : List FileDoc) (st : PluginState)
    (hc : (buildVectorIndexOp np embedOf cancel files st).2 = true)
    (hm : st.file ≠ FileState.absent ∨ st.settingsVectors = []) :
    (buildVectorIndexOp np embedOf cancel files st).1.file = st.file ∧
    (buildVectorIndexOp np embedOf cancel files st).1.settingsVectors = st.settingsVectors ∧
    (buildVectorIndexOp np embedOf cancel files st).1.store
        = (loadVectorStoreOp st).1.store := by
  simp only [buildVectorIndexOp] at hc ⊢
  by_cases hr : (buildFilesLoop np embedOf cancel files.enum 0 []).2.1 = true
  · rw [if_pos hr]
    obtain ⟨s0, f0, sv0⟩ := st
    cases f0 with
    | absent =>
      have hsv : sv0 = [] := by
        refine hm.resolve_left ?_
        simp
      subst hsv
      exact ⟨rfl, rfl, rfl⟩
    | unparseable => exact ⟨rfl, rfl, rfl⟩
    | nonArray => exact ⟨rfl, rfl, rfl⟩
    | valid l => exact ⟨rfl, rfl, rfl⟩
  · rw [if_neg hr] at hc
    exact absurd hc (by simp)

/-- A concrete one-chunk markdown file (witness data). -/
def fileA : FileDoc := ⟨"A.md", "A", "ab".toList, [⟨"ab".toList, 0, 2⟩]⟩

/-- Witness for C2 at a concrete state (existing backing file, cancellation
requested before the first document). -/
theorem buildVectorIndex_cancel_witness :
    (buildVectorIndexOp id (fun _ _ => []) (fun _ => true) [fileA]
        ⟨[], FileState.valid [], []⟩).1.file = FileState.valid [] ∧
    (buildVectorIndexOp id (fun _ _ => []) (fun _ => true) [fileA]
        ⟨[], FileState.valid [], []⟩).1.settingsVectors = [] ∧
    (buildVectorIndexOp id (fun _ _ => []) (fun _ => true) [fileA]
        ⟨[], FileState.valid [], []⟩).1.store
        = (loadVectorStoreOp ⟨[], FileState.valid [], []⟩).1.store :=
  buildVectorIndex_cancel_spec id (fun _ _ => []) (fun _ => true) [fileA]
    ⟨[], FileState.valid [], []⟩ rfl (Or.inr rfl)

/-- Counterexample to C2 as stated: cancelling a rebuild while the backing file
is absent and legacy `settings.vectors` is non-empty triggers the legacy
migration, which writes the backing file — the previously persisted state is
not left unchanged. -/
theorem buildVectorIndex_cancel_counterexample :
    (buildVectorIndexOp id (fun _ _ => []) (fun _ => true) [fileA]
        ⟨[], FileState.absent, [rawA]⟩).2 = true ∧
    (buildVectorIndexOp id (fun _ _ => []) (fun _ => true) [fileA]
        ⟨[], FileState.absent, [rawA]⟩).1.file ≠ FileState.absent := by
  refine ⟨rfl, fun h => ?_⟩
  exact FileState.noConfusion h

/-- Membership in `storeSet`: an entry of the updated map is an old entry or
the newly set one. -/
theorem storeSet_mem {s : Store} {k : String} {v : VectorData} {e : String × VectorData}
    (h : e ∈ storeSet s k v) : e ∈ s ∨ e = (k, v) := by
  unfold storeSet at h
  split at h
  · rcases List.mem_map.mp h with ⟨a, ha, hae⟩
    by_cases hk : a.1 = k
    · right
      rw [← hae, if_pos hk]
    · left
      rw [← hae, if_neg hk]
      exact ha
  · rcases List.mem_append.mp h with h1 | h2
    · exact Or.inl h1
    · right
      simpa using h2

/-- Membership after the chunk-insertion fold, over an arbitrary indexed chunk
list. -/
theorem insertChunks_mem_aux (np : String → String) (filePath basename : String)
    (content : JStr) (total : Nat) (embed : Nat → List ℝ) (l : List (Nat × TextChunk)) :
    ∀ (s : Store) (e : String × VectorData),
    e ∈ l.foldl (fun acc ic =>
        if (embed ic.1).length = 0 then acc
        else storeSet acc (recordKey (np filePath) (ic.1 : Int))
          (chunkRecord np filePath basename content total ic.2 ic.1 (embed ic.1))) s →
    e ∈ s ∨ ∃ ic ∈ l, (embed ic.1).length ≠ 0 ∧
      e = (recordKey (np filePath) (ic.1 : Int),
        chunkRecord np filePath basename content total ic.2 ic.1 (embed ic.1)) := by
  induction l with
  | nil =>
    intro s e h
    exact Or.inl h
  | cons a t ih =>
    intro s e h
    rw [List.foldl_cons] at h
    rcases ih _ _ h with h1 | ⟨ic, hic, hne, he⟩
    · by_cases hemb : (embed a.1).length = 0
      · rw [if_pos hemb] at h1
        exact Or.inl h1
      · rw [if_neg hemb] at h1
        rcases storeSet_mem h1 with h2 | h2
        · exact Or.inl h2
        · exact Or.inr ⟨a, List.mem_cons_self a t, hemb, h2⟩
    · exact Or.inr ⟨ic, List.mem_cons_of_mem a hic, hne, he⟩

/-- Membership after the insertion loop: an entry is an original entry or one
of the freshly inserted chunk records. -/
theorem insertChunks_mem {np : String → String} {filePath basename : String}
    {content : JStr} {chunks : List TextChunk} {embed : Nat → List ℝ} {s : Store}
    {e : String × VectorData}
    (h : e ∈ insertChunks np filePath basename content chunks embed s) :
    e ∈ s ∨ ∃ ic ∈ chunks.enum, (embed ic.1).length ≠ 0 ∧
      e = (recordKey (np filePath) (ic.1 : Int),
        chunkRecord np filePath basename content chunks.length ic.2 ic.1 (embed ic.1)) :=
  insertChunks_mem_aux np filePath basename content chunks.length embed chunks.enum s e h

/-- The content of the 5-chunk-to-3-chunk re-index instance. -/
def contentSix : JStr := "abcdef".toList

/-- Three chunks of `contentSix` (the re-indexed, shorter chunking). -/
def chunks3A : List TextChunk :=
  [⟨"ab".toList, 0, 2⟩, ⟨"cd".toList, 2, 4⟩, ⟨"ef".toList, 4, 6⟩]

/-- An embedding oracle on which every call succeeds. -/
def embedOne : Nat → List ℝ := fun _ => [1]

/-- A store holding five records for path `A.md` (chunk indices 0 to 4). -/
def store5A : Store :=
  (List.range 5).map (fun i => (recordKey "A.md" (i : Int),
    (⟨"A.md", [1], "A", (i : Int), 0, 1⟩ : VectorData)))

/-- C1: after `processFile`, every record stored under the document's
normalized path is one of the freshly inserted chunk records (the removal step
deleted all the old ones first); in particular re-indexing a document that had
5 chunks down to 3 chunks, with every embedding call succeeding, leaves exactly
3 records for that path. -/
theorem processFile_spec (np : String → String) (filePath basename : String)
    (content : JStr) (chunks : List TextChunk) (embed : Nat → List ℝ) (s : Store) :
    (∀ e ∈ processFileStore np filePath basename content chunks embed s,
      e.2.path = np filePath →
      ∃ ic ∈ chunks.enum, (embed ic.1).length ≠ 0 ∧
        e = (recordKey (np filePath) (ic.1 : Int),
          chunkRecord np filePath basename content chunks.length ic.2 ic.1 (embed ic.1))) ∧
    storeCountPath (processFileStore id "A.md" "A" contentSix chunks3A embedOne store5A)
        "A.md" = 3 := by
  constructor
  · intro e he hp
    rcases insertChunks_mem he with h1 | h2
    · exact absurd hp (removeFileVectors_mem h1).2
    · exact h2
  · decide

/-- Witness data for C1: a single fresh chunk of a new document. -/
def chunkB : TextChunk := ⟨"ab".toList, 0, 2⟩

/-- The record `processFile` builds for `chunkB` of document `B.md`. -/
def recB : VectorData := chunkRecord id "B.md" "B" ("ab".toList) 1 chunkB 0 (embedOne 0)

/-- Witness for C1: the single record present after processing `B.md` from an
empty store is the freshly inserted one. -/
theorem processFile_spec_witness :
    ∃ ic ∈ ([chunkB] : List TextChunk).enum, (embedOne ic.1).length ≠ 0 ∧
      ((recordKey "B.md" 0, recB) : String × VectorData)
        = (recordKey (id "B.md") (ic.1 : Int),
          chunkRecord id "B.md" "B" ("ab".toList) ([chunkB] : List TextChunk).length
            ic.2 ic.1 (embedOne ic.1)) :=
  (processFile_spec id "B.md" "B" ("ab".toList) [chunkB] embedOne []).1
    (recordKey "B.md" 0, recB)
    (show (recordKey "B.md" 0, recB) ∈ ([(recordKey "B.md" 0, recB)] : Store) from
      List.mem_singleton.mpr rfl)
    rfl

/-- Store well-formedness: keys are pairwise distinct and every key is the
record's own `` `${path}#${chunkIndex}` ``. -/
def StoreWF (s : Store) : Prop :=
  List.Pairwise (fun a b => a.1 ≠ b.1) s ∧
  ∀ e ∈ s, e.1 = recordKey e.2.path e.2.chunkIndex

/-- Any two members of a pairwise-related list are equal or related one way or
the other. -/
theorem pairwise_mem_rel {α : Type _} {R : α → α → Prop} :
    ∀ {l : List α}, List.Pairwise R l → ∀ {a b : α}, a ∈ l → b ∈ l →
      a = b ∨ R a b ∨ R b a := by
  intro l hl
  induction hl with
  | nil =>
    intro a b ha _
    cases ha
  | cons hhead _ ih =>
    intro a b ha hb
    rcases List.mem_cons.mp ha with rfl | ha'
    · rcases List.mem_cons.mp hb with rfl | hb'
      · exact Or.inl rfl
      · exact Or.inr (Or.inl (hhead _ hb'))
    · rcases List.mem_cons.mp hb with rfl | hb'
      · exact Or.inr (Or.inr (hhead _ ha'))
      · exact ih ha' hb'

/-- `storeSet` preserves well-formedness when the new entry is
key-consistent. -/
theorem storeSet_wf {s : Store} {k : String} {v : VectorData} (hs : StoreWF s)
    (hk : k = recordKey v.path v.chunkIndex) : StoreWF (storeSet s k v) := by
  have hproj : ∀ e : String × VectorData,
      ((if e.1 = k then (k, v) else e) : String × VectorData).1 = e.1 := by
    intro e
    by_cases h : e.1 = k
    · rw [if_pos h]
      exact h.symm
    · rw [if_neg h]
  unfold storeSet
  split
  · constructor
    · refine List.pairwise_map.mpr (hs.1.imp ?_)
      intro a b hab
      rw [hproj a, hproj b]
      exact hab
    · intro e he
      rcases List.mem_map.mp he with ⟨a, ha, rfl⟩
      by_cases h : a.1 = k
      · rw [if_pos h]
        exact hk
      · rw [if_neg h]
        exact hs.2 a ha
  · next hany =>
    constructor
    · rw [List.pairwise_append]
      refine ⟨hs.1, List.pairwise_singleton _ _, ?_⟩
      intro a ha b hb
      rw [List.mem_singleton.mp hb]
      intro hak
      exact hany (List.any_eq_true.mpr ⟨a, ha, by simpa using hak⟩)
    · intro e he
      rcases List.mem_append.mp he with h1 | h2
      · exact hs.2 e h1
      · rw [List.mem_singleton.mp h2]
        exact hk

/-- Filtering preserves well-formedness. -/
theorem storeWF_filter {s : Store} (p : String × VectorData → Bool) (hs : StoreWF s) :
    StoreWF (s.filter p) :=
  ⟨List.Pairwise.sublist (List.filter_sublist s) hs.1,
    fun e he => hs.2 e (List.mem_of_mem_filter he)⟩

/-- A fold of key-consistent `storeSet`s preserves well-formedness. -/
theorem storeSet_fold_wf : ∀ (l : List (String × VectorData)) (s : Store), StoreWF s →
    (∀ kv ∈ l, kv.1 = recordKey kv.2.path kv.2.chunkIndex) →
    StoreWF (l.foldl (fun acc kv => storeSet acc kv.1 kv.2) s) := by
  intro l
  induction l with
  | nil =>
    intro s hs _
    exact hs
  | cons a t ih =>
    intro s hs hl
    rw [List.foldl_cons]
    exact ih _ (storeSet_wf hs (hl a (List.mem_cons_self a t)))
      (fun kv hkv => hl kv (List.mem_cons_of_mem a hkv))

/-- The map `loadVectorStore` builds is well-formed (keys recomputed from path
and chunk index, with the positional fallback). -/
theorem mapOfRaw_wf (vectors : List RawVectorData) : StoreWF (mapOfRaw vectors) := by
  unfold mapOfRaw
  refine storeSet_fold_wf _ [] ⟨List.Pairwise.nil, by intro e he; cases he⟩ ?_
  intro kv hkv
  rcases List.mem_map.mp hkv with ⟨iv, _, rfl⟩
  rfl

/-- The store produced by `loadVectorStore` is well-formed. -/
theorem loadVectorStoreOp_store_wf (st : PluginState) :
    StoreWF (loadVectorStoreOp st).1.store := by
  obtain ⟨s, f, sv⟩ := st
  cases f with
  | absent =>
    by_cases hpos : 0 < sv.length
    · simp only [loadVectorStoreOp]
      rw [if_pos hpos]
      exact mapOfRaw_wf sv
    · simp only [loadVectorStoreOp]
      rw [if_neg hpos]
      exact mapOfRaw_wf []
  | unparseable => exact mapOfRaw_wf []
  | nonArray => exact mapOfRaw_wf []
  | valid l => exact mapOfRaw_wf l

/-- The chunk-insertion fold preserves well-formedness. -/
theorem insert_fold_wf (np : String → String) (filePath basename : String)
    (content : JStr) (total : Nat) (embed : Nat → List ℝ) :
    ∀ (l : List (Nat × TextChunk)) (s : Store), StoreWF s →
    StoreWF (l.foldl (fun acc ic =>
      if (embed ic.1).length = 0 then acc
      else storeSet acc (recordKey (np filePath) (ic.1 : Int))
        (chunkRecord np filePath basename content total ic.2 ic.1 (embed ic.1))) s) := by
  intro l
  induction l with
  | nil =>
    intro s hs
    exact hs
  | cons a t ih =>
    intro s hs
    rw [List.foldl_cons]
    refine ih _ ?_
    by_cases hemb : (embed a.1).length = 0
    · rw [if_pos hemb]
      exact hs
    · rw [if_neg hemb]
      exact storeSet_wf hs rfl

/-- `processFile`'s store mutation preserves well-formedness. -/
theorem processFileStore_wf (np : String → String) (filePath basename : String)
    (content : JStr) (chunks : List TextChunk) (embed : Nat → List ℝ) {s : Store}
    (hs : StoreWF s) :
    StoreWF (processFileStore np filePath basename content chunks embed s) :=
  insert_fold_wf np filePath basename content chunks.length embed chunks.enum _
    (storeWF_filter _ hs)

/-- The inner rebuild loop preserves well-formedness. -/
theorem buildChunksLoop_wf (np : String → String) (embed : Nat → List ℝ)
    (cancel : Nat → Bool) (f : FileDoc) :
    ∀ (l : List (Nat × TextChunk)) (cp : Nat) (s : Store), StoreWF s →
    StoreWF (buildChunksLoop np embed cancel f l cp s).1 := by
  intro l
  induction l with
  | nil =>
    intro cp s hs
    exact hs
  | cons a t ih =>
    intro cp s hs
    simp only [buildChunksLoop]
    split
    · exact hs
    · refine ih _ _ ?_
      by_cases hemb : (embed a.1).length = 0
      · rw [if_pos hemb]
        exact hs
      · rw [if_neg hemb]
        exact storeSet_wf hs rfl

/-- The outer rebuild loop preserves well-formedness. -/
theorem buildFilesLoop_wf (np : String → String) (embedOf : Nat → Nat → List ℝ)
    (cancel : Nat → Bool) :
    ∀ (l : List (Nat × FileDoc)) (cp : Nat) (s : Store), StoreWF s →
    StoreWF (buildFilesLoop np embedOf cancel l cp s).1 := by
  intro l
  induction l with
  | nil =>
    intro cp s hs
    exact hs
  | cons a t ih =>
    intro cp s hs
    simp only [buildFilesLoop]
    split
    · exact hs
    · have hinner := buildChunksLoop_wf np (embedOf a.1) cancel a.2 a.2.chunks.enum (cp + 1) s hs
      split
      · next s' cp' heq =>
        rw [heq] at hinner
        exact hinner
      · next s' cp' heq =>
        rw [heq] at hinner
        exact ih _ _ hinner

/-- The in-memory stores reachable through loading, incremental re-indexing,
removal and full rebuilds (from any plugin state). -/
inductive ReachableStore (np : String → String) : Store → Prop
  | empty : ReachableStore np []
  | load (st : PluginState) : ReachableStore np (loadVectorStoreOp st).1.store
  | remove (p : String) {s : Store} : ReachableStore np s →
      ReachableStore np (removeFileVectors np p s)
  | process (filePath basename : String) (content : JStr) (chunks : List TextChunk)
      (embed : Nat → List ℝ) {s : Store} : ReachableStore np s →
      ReachableStore np (processFileStore np filePath basename content chunks embed s)
  | build (embedOf : Nat → Nat → List ℝ) (cancel : Nat → Bool) (files : List FileDoc)
      (st : PluginState) :
      ReachableStore np (buildVectorIndexOp np embedOf cancel files st).1.store

/-- Every reachable store is well-formed. -/
theorem reachable_wf {np : String → String} {s : Store} (hr : ReachableStore np s) :
    StoreWF s := by
  induction hr with
  | empty => exact ⟨List.Pairwise.nil, by intro e he; cases he⟩
  | load st => exact loadVectorStoreOp_store_wf st
  | remove p _ ih => exact storeWF_filter _ ih
  | process filePath basename content chunks embed _ ih =>
    exact processFileStore_wf np filePath basename content chunks embed ih
  | build embedOf cancel files st =>
    simp only [buildVectorIndexOp]
    split
    · exact loadVectorStoreOp_store_wf _
    · exact buildFilesLoop_wf np embedOf cancel files.enum 0 []
        ⟨List.Pairwise.nil, by intro e he; cases he⟩

/-- C9: in every reachable store, each entry's key is the value's path followed
by `#` and the value's `chunkIndex`, and no two entries share the same
`(path, chunkIndex)` pair. -/
theorem storeKey_invariant (np : String → String) (s : Store) (hr : ReachableStore np s) :
    (∀ e ∈ s, e.1 = recordKey e.2.path e.2.chunkIndex) ∧
    (∀ e1 ∈ s, ∀ e2 ∈ s, e1.2.path = e2.2.path → e1.2.chunkIndex = e2.2.chunkIndex →
      e1 = e2) := by
  have hwf := reachable_wf hr
  refine ⟨hwf.2, ?_⟩
  intro e1 h1 e2 h2 hp hc
  rcases pairwise_mem_rel hwf.1 h1 h2 with heq | hne | hne
  · exact heq
  · exact absurd (show e1.1 = e2.1 by rw [hwf.2 e1 h1, hwf.2 e2 h2, hp, hc]) hne
  · exact absurd (show e1.1 = e2.1 by rw [hwf.2 e1 h1, hwf.2 e2 h2, hp, hc])
      (fun h => hne h.symm)

/-- Witness for C9 at a concrete reachable store (loaded from a one-record
file). -/
theorem storeKey_invariant_witness :
    (∀ e ∈ (loadVectorStoreOp ⟨[], FileState.valid [rawA], []⟩).1.store,
      e.1 = recordKey e.2.path e.2.chunkIndex) ∧
    (∀ e1 ∈ (loadVectorStoreOp ⟨[], FileState.valid [rawA], []⟩).1.store,
      ∀ e2 ∈ (loadVectorStoreOp ⟨[], FileState.valid [rawA], []⟩).1.store,
      e1.2.path = e2.2.path → e1.2.chunkIndex = e2.2.chunkIndex → e1 = e2) :=
  storeKey_invariant id _ (ReachableStore.load ⟨[], FileState.valid [rawA], []⟩)

/-- Every result the filtering fold accumulates scores at or above the
threshold. -/
theorem searchResults_fold_mem (qe : List ℝ) (th : ℝ) :
    ∀ (l : List VectorData) (acc : List (VectorData × ℝ)),
    (∀ x ∈ acc, th ≤ x.2) →
    ∀ x ∈ l.foldl (fun results v =>
      let similarity := cosineSimilarity qe v.embedding
      if th ≤ similarity then results ++ [(v, similarity)] else results) acc,
    th ≤ x.2 := by
  intro l
  induction l with
  | nil =>
    intro acc hacc x hx
    exact hacc x hx
  | cons v t ih =>
    intro acc hacc x hx
    rw [List.foldl_cons] at hx
    refine ih _ ?_ x hx
    intro y hy
    dsimp only at hy
    by_cases hth : th ≤ cosineSimilarity qe v.embedding
    · rw [if_pos hth] at hy
      rcases List.mem_append.mp hy with h1 | h2
      · exact hacc y h1
      · rw [List.mem_singleton.mp h2]
        exact hth
    · rw [if_neg hth] at hy
      exact hacc y hy

/-- Every member of `searchResults` scores at or above the threshold. -/
theorem searchResults_mem {qe : List ℝ} {store : Store} {th : ℝ} {x : VectorData × ℝ}
    (hx : x ∈ searchResults qe store th) : th ≤ x.2 :=
  searchResults_fold_mem qe th (storeValues store) [] (by intro y hy; cases hy) x hx

/-- `sortResults` sorts scores in descending order. -/
theorem sortResults_sorted (results : List (VectorData × ℝ)) :
    List.Pairwise (fun a b : VectorData × ℝ => b.2 ≤ a.2) (sortResults results) := by
  have h := @List.sorted_mergeSort (VectorData × ℝ) (fun a b => decide (b.2 ≤ a.2))
    (fun a b c hab hbc => decide_eq_true
      (le_trans (of_decide_eq_true hbc) (of_decide_eq_true hab)))
    (fun a b => by
      rcases le_total b.2 a.2 with h | h
      · simp [h]
      · simp [h])
    results
  exact h.imp (fun hab => of_decide_eq_true hab)

/-- C5: whenever `performSearch` produces a result list, every entry scores at
or above the threshold, the list is sorted in descending score order, and its
length is at most `maxResults` (truncation happens after sorting). -/
theorem performSearch_spec (query : JStr) (ready : Bool) (qe : List ℝ) (store : Store)
    (th : ℝ) (mr : Nat) (res : List (VectorData × ℝ))
    (h : performSearch query ready qe store th mr = some res) :
    (∀ x ∈ res, th ≤ x.2) ∧
    List.Pairwise (fun a b : VectorData × ℝ => b.2 ≤ a.2) res ∧
    res.length ≤ mr := by
  unfold performSearch at h
  by_cases h1 : query.length < 3
  · rw [if_pos h1] at h
    cases h
  rw [if_neg h1] at h
  by_cases h2 : store.length = 0
  · rw [if_pos h2] at h
    cases h
  rw [if_neg h2] at h
  by_cases h3 : ready = false
  · rw [if_pos h3] at h
    cases h
  rw [if_neg h3] at h
  by_cases h4 : qe.length = 0
  · rw [if_pos h4] at h
    cases h
  rw [if_neg h4] at h
  have hres : res = (sortResults (searchResults qe store th)).take mr :=
    (Option.some.inj h).symm
  subst hres
  refine ⟨?_, ?_, ?_⟩
  · intro x hx
    have hx' := List.mem_of_mem_take hx
    unfold sortResults at hx'
    exact searchResults_mem
      ((List.mergeSort_perm (searchResults qe store th) _).mem_iff.mp hx')
  · exact List.Pairwise.sublist (List.take_sublist _ _) (sortResults_sorted _)
  · exact List.length_take_le _ _

/-- The query embedding of the unit query is perfectly similar to itself. -/
theorem cosineSimilarity_one : cosineSimilarity [(1 : ℝ)] [(1 : ℝ)] = 1 := by
  have hm : magnitude [(1 : ℝ)] = 1 := by simp [magnitude]
  unfold cosineSimilarity
  rw [if_neg (by simp), if_neg (by rw [hm]; simp)]
  rw [show dotProd [(1 : ℝ)] [(1 : ℝ)] = 1 by simp [dotProd], hm]
  norm_num

/-- Evaluation of `performSearch` on the concrete witness state. -/
theorem performSearch_eval :
    performSearch ("abc".toList) true [(1 : ℝ)] storeA ((1 : ℝ)/2) 10
      = some [(vA, 1)] := by
  unfold performSearch
  rw [if_neg (by decide), if_neg (by decide), if_neg (by decide),
    if_neg (by simp)]
  have hsr : searchResults [(1 : ℝ)] storeA ((1 : ℝ)/2) = [(vA, 1)] := by
    simp only [searchResults, storeValues, storeA, vA, List.map_cons, List.map_nil,
      List.foldl_cons, List.foldl_nil, cosineSimilarity_one]
    norm_num
  rw [hsr]
  rw [show sortResults [(vA, (1 : ℝ))] = [(vA, 1)] from
    List.perm_singleton.mp (List.mergeSort_perm _ _)]
  rfl

/-- Witness for C5 at the concrete one-record store and unit query. -/
theorem performSearch_spec_witness :
    (∀ x ∈ ([(vA, (1 : ℝ))] : List (VectorData × ℝ)), (1 : ℝ)/2 ≤ x.2) ∧
    List.Pairwise (fun a b : VectorData × ℝ => b.2 ≤ a.2)
      ([(vA, (1 : ℝ))] : List (VectorData × ℝ)) ∧
    ([(vA, (1 : ℝ))] : List (VectorData × ℝ)).length ≤ 10 :=
  performSearch_spec ("abc".toList) true [(1 : ℝ)] storeA ((1 : ℝ)/2) 10 [(vA, 1)]
    performSearch_eval

/-- The one-step unfolding of the character-mode loop. -/
theorem charChunksFuel_eq (cs co : Nat) (content : JStr) (fuel : Nat) (i : Int) :
    charChunksFuel cs co content fuel i
      = if i < (content.length : Int) then
          match fuel with
          | 0 => none
          | fuel' + 1 =>
            match charChunksFuel cs co content fuel' (i + ((cs : Int) - (co : Int))) with
            | none => none
            | some rest =>
              some (⟨jsSlice content i.toNat (min (i.toNat + cs) content.length),
                i.toNat, min (i.toNat + cs) content.length⟩ :: rest)
        else some [] := by
  cases fuel with
  | zero => rfl
  | succ f => rfl

/-- Past the end of the content, the loop exits immediately. -/
theorem charChunksFuel_stop (cs co : Nat) (content : JStr) (fuel : Nat) (i : Int)
    (h : ¬ i < (content.length : Int)) :
    charChunksFuel cs co content fuel i = some [] := by
  rw [charChunksFuel_eq, if_neg h]

/-- Inside the content with one more iteration allowed. -/
theorem charChunksFuel_succ (cs co : Nat) (content : JStr) (fuel : Nat) (i : Int)
    (h : i < (content.length : Int)) :
    charChunksFuel cs co content (fuel + 1) i
      = match charChunksFuel cs co content fuel (i + ((cs : Int) - (co : Int))) with
        | none => none
        | some rest =>
          some (⟨jsSlice content i.toNat (min (i.toNat + cs) content.length),
            i.toNat, min (i.toNat + cs) content.length⟩ :: rest) := by
  rw [charChunksFuel_eq, if_pos h]

/-- With a positive advance step, `content.length - i` iterations of budget are
enough for the loop to exit. -/
theorem charChunksFuel_terminates (cs co : Nat) (content : JStr) (hco : co < cs) :
    ∀ (fuel : Nat) (i : Int), 0 ≤ i → (content.length : Int) ≤ i + fuel →
    ∃ L, charChunksFuel cs co content fuel i = some L := by
  intro fuel
  induction fuel with
  | zero =>
    intro i _ hle
    refine ⟨[], charChunksFuel_stop cs co content 0 i ?_⟩
    omega
  | succ f ih =>
    intro i hi hle
    by_cases hlt : i < (content.length : Int)
    · obtain ⟨L', hL'⟩ := ih (i + ((cs : Int) - (co : Int))) (by omega) (by omega)
      exact ⟨_, by rw [charChunksFuel_succ cs co content f i hlt, hL']⟩
    · exact ⟨[], charChunksFuel_stop cs co content _ i hlt⟩

/-- Splitting a drop at an intermediate point `b`. -/
theorem take_drop_append {α : Type _} (l : List α) (a b : Nat) (hab : a ≤ b) :
    (l.take b).drop a ++ l.drop b = l.drop a := by
  rw [List.drop_take]
  have hdd : l.drop b = (l.drop a).drop (b - a) := by
    rw [List.drop_drop]
    congr 1
    omega
  rw [hdd, List.take_append_drop]

/-- Dropping the overlap from every chunk produced from cursor `i` onward and
concatenating yields the content from position `i + chunkOverlap` on. -/
theorem charChunksFuel_flatten_drop (cs co : Nat) (content : JStr) (hco : co < cs) :
    ∀ (fuel : Nat) (i : Int), 0 ≤ i →
    ∀ L, charChunksFuel cs co content fuel i = some L →
    ((L.map (fun c => c.text.drop co)).flatten : JStr)
      = content.drop (min (i.toNat + co) content.length) := by
  intro fuel
  induction fuel with
  | zero =>
    intro i hi L hL
    by_cases hlt : i < (content.length : Int)
    · rw [charChunksFuel_eq, if_pos hlt] at hL
      cases hL
    · rw [charChunksFuel_stop cs co content 0 i hlt] at hL
      cases hL
      have hmin : min (i.toNat + co) content.length = content.length := by omega
      simp only [List.map_nil, List.flatten_nil]
      rw [hmin, List.drop_length]
  | succ f ih =>
    intro i hi L hL
    by_cases hlt : i < (content.length : Int)
    · rw [charChunksFuel_succ cs co content f i hlt] at hL
      rcases hrec : charChunksFuel cs co content f (i + ((cs : Int) - (co : Int))) with _ | rest
      · rw [hrec] at hL
        cases hL
      · rw [hrec] at hL
        cases hL
        have hrest := ih (i + ((cs : Int) - (co : Int))) (by omega) rest hrec
        have hij : (i + ((cs : Int) - (co : Int))).toNat + co = i.toNat + cs := by omega
        rw [hij] at hrest
        simp only [List.map_cons, List.flatten_cons, hrest]
        have htext : (jsSlice content i.toNat (min (i.toNat + cs) content.length)).drop co
            = (content.take (min (i.toNat + cs) content.length)).drop (i.toNat + co) := by
          unfold jsSlice
          rw [List.drop_drop]
        rw [htext]
        by_cases hce : i.toNat + co ≤ min (i.toNat + cs) content.length
        · rw [show min (i.toNat + co) content.length = i.toNat + co by omega]
          exact take_drop_append content (i.toNat + co) (min (i.toNat + cs) content.length) hce
        · have h1 : min (i.toNat + cs) content.length = content.length := by omega
          have h2 : min (i.toNat + co) content.length = content.length := by omega
          rw [h1, h2, List.take_length, List.drop_length, List.append_nil]
          exact List.drop_eq_nil_of_le (by omega)
    · rw [charChunksFuel_stop cs co content _ i hlt] at hL
      cases hL
      have hmin : min (i.toNat + co) content.length = content.length := by omega
      simp only [List.map_nil, List.flatten_nil]
      rw [hmin, List.drop_length]

/-- Starting at cursor 0, the overlap-aware concatenation reconstructs the
whole content. -/
theorem charChunksFuel_recon (cs co : Nat) (content : JStr) (hco : co < cs)
    (fuel : Nat) (L : List TextChunk)
    (hL : charChunksFuel cs co content fuel 0 = some L) :
    reconOverlap co L = content := by
  by_cases hlt : (0 : Int) < (content.length : Int)
  · cases fuel with
    | zero =>
      rw [charChunksFuel_eq, if_pos hlt] at hL
      cases hL
    | succ f =>
      rw [charChunksFuel_succ cs co content f 0 hlt] at hL
      rcases hrec : charChunksFuel cs co content f (0 + ((cs : Int) - (co : Int)))
          with _ | rest
      · rw [hrec] at hL
        cases hL
      · rw [hrec] at hL
        cases hL
        have hrest := charChunksFuel_flatten_drop cs co content hco f
          (0 + ((cs : Int) - (co : Int))) (by omega) rest hrec
        have hij : (0 + ((cs : Int) - (co : Int))).toNat + co = cs := by omega
        rw [hij] at hrest
        rw [show ∀ c rest', reconOverlap co (c :: rest')
            = c.text ++ (rest'.map (fun d => d.text.drop co)).flatten
          from fun c rest' => rfl]
        dsimp only
        rw [hrest, show (Int.toNat 0) = 0 from rfl, Nat.zero_add]
        have hsl : jsSlice content 0 (min cs content.length)
            = content.take (min cs content.length) := by
          unfold jsSlice
          rw [List.drop_zero]
        rw [hsl]
        exact List.take_append_drop _ content
  · have hL' : L = [] := by
      rw [charChunksFuel_stop cs co content fuel 0 hlt] at hL
      cases hL
      rfl
    have hc : content = [] := by
      have : content.length = 0 := by omega
      exact List.length_eq_zero.mp this
    rw [hL', hc]
    rfl

/-- Offsets of the produced chunks: bounded by the content and non-decreasing. -/
theorem charChunksFuel_offsets (cs co : Nat) (content : JStr) (hco : co < cs) :
    ∀ (fuel : Nat) (i : Int), 0 ≤ i →
    ∀ L, charChunksFuel cs co content fuel i = some L →
    (∀ c ∈ L, i.toNat ≤ c.startOffset ∧ c.startOffset ≤ c.endOffset ∧
      c.endOffset ≤ content.length) ∧
    chunkOffsetsMono L = true := by
  intro fuel
  induction fuel with
  | zero =>
    intro i hi L hL
    by_cases hlt : i < (content.length : Int)
    · rw [charChunksFuel_eq, if_pos hlt] at hL
      cases hL
    · rw [charChunksFuel_stop cs co content 0 i hlt] at hL
      cases hL
      exact ⟨(fun c hc => nomatch hc), rfl⟩
  | succ f ih =>
    intro i hi L hL
    by_cases hlt : i < (content.length : Int)
    · rw [charChunksFuel_succ cs co content f i hlt] at hL
      rcases hrec : charChunksFuel cs co content f (i + ((cs : Int) - (co : Int)))
          with _ | rest
      · rw [hrec] at hL
        cases hL
      · rw [hrec] at hL
        cases hL
        obtain ⟨hb, hm⟩ := ih (i + ((cs : Int) - (co : Int))) (by omega) rest hrec
        have hnext : i.toNat ≤ (i + ((cs : Int) - (co : Int))).toNat := by omega
        constructor
        · intro c hc
          rcases List.mem_cons.mp hc with rfl | hc'
          · refine ⟨?_, ?_, ?_⟩ <;> dsimp only <;> omega
          · obtain ⟨hb1, hb2, hb3⟩ := hb c hc'
            exact ⟨le_trans hnext hb1, hb2, hb3⟩
        · cases rest with
          | nil => rfl
          | cons c' t =>
            have hc' : (i + ((cs : Int) - (co : Int))).toNat ≤ c'.startOffset :=
              (hb c' (List.mem_cons_self c' t)).1
            have : chunkOffsetsMono
                (⟨jsSlice content i.toNat (min (i.toNat + cs) content.length),
                  i.toNat, min (i.toNat + cs) content.length⟩ :: c' :: t)
                = (decide (i.toNat ≤ c'.startOffset) && chunkOffsetsMono (c' :: t)) := rfl
            rw [this, hm, decide_eq_true (le_trans hnext hc'), Bool.and_self]
    · rw [charChunksFuel_stop cs co content _ i hlt] at hL
      cases hL
      exact ⟨(fun c hc => nomatch hc), rfl⟩

/-- C6 (amended): for the character strategy with `0 < chunkSize` and
`chunkOverlap < chunkSize`, the loop terminates within `content.length + 1`
iterations, concatenating the chunk texts after dropping the declared overlap
from each chunk after the first reconstructs the content exactly, and the
chunk offsets are monotonically non-decreasing and within the document
bounds. -/
theorem charChunks_reconstruct_spec (cs co : Nat) (content : JStr) (hcs : 0 < cs)
    (hco : co < cs) :
    splitIntoChunksFuel ⟨cs, co, ChunkStrategy.character⟩ content (content.length + 1)
      = some (charChunks cs co content) ∧
    reconOverlap co (charChunks cs co content) = content ∧
    chunkOffsetsMono (charChunks cs co content) = true ∧
    (charChunks cs co content).all (chunkInBounds content.length) = true := by
  obtain ⟨L, hL⟩ := charChunksFuel_terminates cs co content hco (content.length + 1) 0
    (le_refl 0) (by omega)
  have hchar : charChunks cs co content = L := by
    unfold charChunks
    rw [hL]
    rfl
  have hfirst : splitIntoChunksFuel ⟨cs, co, ChunkStrategy.character⟩ content
      (content.length + 1) = some (charChunks cs co content) := by
    simp only [splitIntoChunksFuel]
    rw [if_neg (by omega), if_neg (by decide)]
    rw [hchar]
    exact hL
  obtain ⟨hb, hm⟩ := charChunksFuel_offsets cs co content hco (content.length + 1) 0
    (le_refl 0) L hL
  refine ⟨hfirst, ?_, ?_, ?_⟩
  · rw [hchar]
    exact charChunksFuel_recon cs co content hco (content.length + 1) L hL
  · rw [hchar]
    exact hm
  · rw [hchar]
    rw [List.all_eq_true]
    intro c hc
    obtain ⟨_, hb2, hb3⟩ := hb c hc
    unfold chunkInBounds
    rw [decide_eq_true hb2, decide_eq_true hb3]
    rfl

/-- Witness for C6 at `chunkSize = 2`, `chunkOverlap = 1`, content `abc`. -/
theorem charChunks_reconstruct_witness :
    splitIntoChunksFuel ⟨2, 1, ChunkStrategy.character⟩ ("abc".toList)
      (("abc".toList).length + 1) = some (charChunks 2 1 ("abc".toList)) ∧
    reconOverlap 1 (charChunks 2 1 ("abc".toList)) = "abc".toList ∧
    chunkOffsetsMono (charChunks 2 1 ("abc".toList)) = true ∧
    (charChunks 2 1 ("abc".toList)).all (chunkInBounds ("abc".toList).length) = true :=
  charChunks_reconstruct_spec 2 1 ("abc".toList) (by decide) (by decide)

/-- Paragraph separation: `p` ends strictly before `q` starts. -/
def paraSep (p q : Para) : Prop := p.stop < q.start

/-- Invariant of the line scan building the `paragraphs` array. -/
def PInv (st : Nat × Nat × List Para) : Prop :=
  st.2.1 ≤ st.1 ∧ List.Pairwise paraSep st.2.2 ∧
  ∀ p ∈ st.2.2, p.start < p.stop ∧ p.stop < st.2.1

/-- One line of the scan preserves the invariant. -/
theorem paraStep_inv (st : Nat × Nat × List Para) (line : JStr) (h : PInv st) :
    PInv (paraStep st line) := by
  obtain ⟨offset, pStart, ps⟩ := st
  obtain ⟨h1, h2, h3⟩ := h
  dsimp only at h1 h3
  unfold paraStep
  dsimp only
  by_cases hbl : (jsTrim line).length = 0
  · rw [if_pos hbl]
    by_cases hpush : pStart < offset
    · rw [if_pos hpush]
      unfold PInv
      dsimp only
      refine ⟨le_refl _, ?_, ?_⟩
      · rw [List.pairwise_append]
        refine ⟨h2, List.pairwise_singleton _ _, ?_⟩
        intro p hp q hq
        rw [List.mem_singleton.mp hq]
        show p.stop < pStart
        exact (h3 p hp).2
      · intro p hp
        rcases List.mem_append.mp hp with hp1 | hp2
        · obtain ⟨ha, hb⟩ := h3 p hp1
          exact ⟨ha, by omega⟩
        · rw [List.mem_singleton.mp hp2]
          refine ⟨hpush, ?_⟩
          show offset < offset + line.length + 1
          omega
    · rw [if_neg hpush]
      unfold PInv
      dsimp only
      refine ⟨le_refl _, h2, ?_⟩
      intro p hp
      obtain ⟨ha, hb⟩ := h3 p hp
      exact ⟨ha, by omega⟩
  · rw [if_neg hbl]
    unfold PInv
    dsimp only
    refine ⟨by omega, h2, ?_⟩
    intro p hp
    obtain ⟨ha, hb⟩ := h3 p hp
    exact ⟨ha, by omega⟩

/-- The `paragraphs` array is a list of separated non-empty intervals. -/
theorem paragraphsOf_wf (content : JStr) :
    List.Pairwise paraSep (paragraphsOf content) ∧
    ∀ p ∈ paragraphsOf content, p.start < p.stop := by
  have hfold : PInv ((splitNl content).foldl paraStep (0, 0, [])) := by
    have hgen : ∀ (lines : List JStr) (st : Nat × Nat × List Para),
        PInv st → PInv (lines.foldl paraStep st) := by
      intro lines
      induction lines with
      | nil =>
        intro st h
        exact h
      | cons l t ih =>
        intro st h
        rw [List.foldl_cons]
        exact ih _ (paraStep_inv st l h)
    exact hgen _ _ ⟨le_refl 0, List.Pairwise.nil, fun p hp => nomatch hp⟩
  unfold paragraphsOf
  obtain ⟨h1, h2, h3⟩ := hfold
  dsimp only
  split
  · next hpush =>
    constructor
    · rw [List.pairwise_append]
      refine ⟨h2, List.pairwise_singleton _ _, ?_⟩
      intro p hp q hq
      rw [List.mem_singleton.mp hq]
      exact (h3 p hp).2
    · intro p hp
      rcases List.mem_append.mp hp with hp1 | hp2
      · exact (h3 p hp1).1
      · rw [List.mem_singleton.mp hp2]
        exact hpush
  · exact ⟨h2, fun p hp => (h3 p hp).1⟩

/-- A text with a non-blank trim is non-empty. -/
theorem jsTrim_len_pos {x : JStr} (h : (jsTrim x).length ≠ 0) : 1 ≤ x.length := by
  rcases x with _ | ⟨c, t⟩
  · exact absurd rfl h
  · simp

/-- `chunkStep` on an all-whitespace paragraph does nothing. -/
theorem chunkStep_blank (content : JStr) (cs : Nat) (cur : Option (Nat × Nat × Int))
    (chunks : List TextChunk) (p : Para)
    (hnb : (jsTrim (jsSlice content p.start p.stop)).length = 0) :
    chunkStep content cs (cur, chunks) p = (cur, chunks) := by
  unfold chunkStep
  dsimp only
  rw [if_pos hnb]

/-- `chunkStep` with no current chunk starts one at the paragraph. -/
theorem chunkStep_none (content : JStr) (cs : Nat) (chunks : List TextChunk) (p : Para)
    (hnb : ¬ (jsTrim (jsSlice content p.start p.stop)).length = 0) :
    chunkStep content cs (none, chunks) p
      = (some (p.start, p.stop, ((jsSlice content p.start p.stop).length : Int)), chunks) := by
  unfold chunkStep
  dsimp only
  rw [if_neg hnb]

/-- `chunkStep` closing the current chunk when the budget would be exceeded. -/
theorem chunkStep_close (content : JStr) (cs : Nat) (c0s c0e : Nat) (c0l : Int)
    (chunks : List TextChunk) (p : Para)
    (hnb : ¬ (jsTrim (jsSlice content p.start p.stop)).length = 0)
    (hcond : (cs : Int) < c0l + ((p.start : Int) - (c0e : Int))
        + ((jsSlice content p.start p.stop).length : Int) ∧ (0 : Int) < c0l) :
    chunkStep content cs (some (c0s, c0e, c0l), chunks) p
      = (some (p.start, p.stop, ((jsSlice content p.start p.stop).length : Int)),
         chunks ++ [⟨jsSlice content c0s c0e, c0s, c0e⟩]) := by
  unfold chunkStep
  dsimp only
  rw [if_neg hnb, if_pos hcond]

/-- `chunkStep` extending the current chunk across the gap. -/
theorem chunkStep_extend (content : JStr) (cs : Nat) (c0s c0e : Nat) (c0l : Int)
    (chunks : List TextChunk) (p : Para)
    (hnb : ¬ (jsTrim (jsSlice content p.start p.stop)).length = 0)
    (hcond : ¬ ((cs : Int) < c0l + ((p.start : Int) - (c0e : Int))
        + ((jsSlice content p.start p.stop).length : Int) ∧ (0 : Int) < c0l)) :
    chunkStep content cs (some (c0s, c0e, c0l), chunks) p
      = (some (c0s, p.stop, c0l + ((p.start : Int) - (c0e : Int))
          + ((jsSlice content p.start p.stop).length : Int)), chunks) := by
  unfold chunkStep
  dsimp only
  rw [if_neg hnb, if_neg hcond]

/-- Invariant of the current-chunk register during the paragraph fold. -/
def CurInv (ps rem : List Para) (chunks : List TextChunk) :
    Option (Nat × Nat × Int) → Prop
  | none => chunks = []
  | some (s0, e0, l0) =>
      (∃ p ∈ ps, s0 = p.start) ∧ (∃ p ∈ ps, e0 = p.stop) ∧ s0 < e0 ∧ 1 ≤ l0 ∧
      (∀ c ∈ chunks, c.startOffset < s0) ∧ (∀ q ∈ rem, e0 ≤ q.start)

/-- Full invariant of the paragraph-accumulation fold, relative to the full
paragraph list `ps` and the remaining suffix `rem`. -/
def CInv (ps rem : List Para) (cur : Option (Nat × Nat × Int))
    (chunks : List TextChunk) : Prop :=
  (∀ c ∈ chunks, (∃ p ∈ ps, c.startOffset = p.start) ∧
    (∃ p ∈ ps, c.endOffset = p.stop)) ∧
  List.Pairwise (fun a b => a.startOffset < b.startOffset) chunks ∧
  CurInv ps rem chunks cur

/-- Forgetting the head of the remaining-paragraph list weakens the
invariant. -/
theorem CurInv_weaken {ps : List Para} {p : Para} {rem : List Para}
    {chunks : List TextChunk} {cur : Option (Nat × Nat × Int)}
    (h : CurInv ps (p :: rem) chunks cur) : CurInv ps rem chunks cur := by
  cases cur with
  | none => exact h
  | some t =>
    obtain ⟨s0, e0, l0⟩ := t
    obtain ⟨ha, hb, hc, hd, he, hf⟩ := h
    exact ⟨ha, hb, hc, hd, he, fun q hq => hf q (List.mem_cons_of_mem p hq)⟩

/-- One `chunkStep` preserves the invariant. -/
theorem chunkStep_inv (content : JStr) (cs : Nat) (ps : List Para) (p : Para)
    (rem : List Para) (cur : Option (Nat × Nat × Int)) (chunks : List TextChunk)
    (hp : p ∈ ps) (hps : p.start < p.stop)
    (hrem : ∀ q ∈ rem, p.stop < q.start)
    (hinv : CInv ps (p :: rem) cur chunks) :
    CInv ps rem (chunkStep content cs (cur, chunks) p).1
      (chunkStep content cs (cur, chunks) p).2 := by
  obtain ⟨hcb, hcpw, hcur⟩ := hinv
  by_cases hnb : (jsTrim (jsSlice content p.start p.stop)).length = 0
  · rw [chunkStep_blank content cs cur chunks p hnb]
    exact ⟨hcb, hcpw, CurInv_weaken hcur⟩
  · have hlen : 1 ≤ ((jsSlice content p.start p.stop).length : Int) := by
      have := jsTrim_len_pos hnb
      exact_mod_cast this
    cases cur with
    | none =>
      have hempty : chunks = [] := hcur
      subst hempty
      rw [chunkStep_none content cs [] p hnb]
      refine ⟨hcb, hcpw, ?_⟩
      refine ⟨⟨p, hp, rfl⟩, ⟨p, hp, rfl⟩, hps, hlen, ?_, ?_⟩
      · intro c hc
        cases hc
      · intro q hq
        exact le_of_lt (hrem q hq)
    | some t =>
      obtain ⟨c0s, c0e, c0l⟩ := t
      obtain ⟨hs, he, hse, hl1, hblt, hrc⟩ := hcur
      have hgap : c0e ≤ p.start := hrc p (List.mem_cons_self p rem)
      by_cases hcond : (cs : Int) < c0l + ((p.start : Int) - (c0e : Int))
          + ((jsSlice content p.start p.stop).length : Int) ∧ (0 : Int) < c0l
      · rw [chunkStep_close content cs c0s c0e c0l chunks p hnb hcond]
        refine ⟨?_, ?_, ?_⟩
        · intro c hc
          rcases List.mem_append.mp hc with h1 | h2
          · exact hcb c h1
          · rw [List.mem_singleton.mp h2]
            exact ⟨⟨hs.choose, hs.choose_spec.1, hs.choose_spec.2⟩,
              ⟨he.choose, he.choose_spec.1, he.choose_spec.2⟩⟩
        · rw [List.pairwise_append]
          refine ⟨hcpw, List.pairwise_singleton _ _, ?_⟩
          intro a ha b hb
          rw [List.mem_singleton.mp hb]
          exact hblt a ha
        · refine ⟨⟨p, hp, rfl⟩, ⟨p, hp, rfl⟩, hps, hlen, ?_, ?_⟩
          · intro c hc
            rcases List.mem_append.mp hc with h1 | h2
            · have := hblt c h1
              omega
            · rw [List.mem_singleton.mp h2]
              dsimp only
              omega
          · intro q hq
            exact le_of_lt (hrem q hq)
      · rw [chunkStep_extend content cs c0s c0e c0l chunks p hnb hcond]
        refine ⟨hcb, hcpw, ?_⟩
        refine ⟨hs, ⟨p, hp, rfl⟩, by omega, by omega, hblt, ?_⟩
        intro q hq
        exact le_of_lt (hrem q hq)

/-- The whole paragraph fold preserves the invariant down to an empty
remainder. -/
theorem chunkFold_inv (content : JStr) (cs : Nat) (ps : List Para) :
    ∀ (rem : List Para) (cur : Option (Nat × Nat × Int)) (chunks : List TextChunk),
    (∀ q ∈ rem, q ∈ ps) → List.Pairwise paraSep rem → (∀ q ∈ rem, q.start < q.stop) →
    CInv ps rem cur chunks →
    CInv ps [] (rem.foldl (chunkStep content cs) (cur, chunks)).1
      (rem.foldl (chunkStep content cs) (cur, chunks)).2 := by
  intro rem
  induction rem with
  | nil =>
    intro cur chunks _ _ _ h
    exact h
  | cons p t ih =>
    intro cur chunks hsub hpw hlt hinv
    rw [List.foldl_cons]
    have hpw' := List.pairwise_cons.mp hpw
    have hstep := chunkStep_inv content cs ps p t cur chunks
      (hsub p (List.mem_cons_self p t)) (hlt p (List.mem_cons_self p t))
      (fun q hq => hpw'.1 q hq) hinv
    exact ih (chunkStep content cs (cur, chunks) p).1
      (chunkStep content cs (cur, chunks) p).2
      (fun q hq => hsub q (List.mem_cons_of_mem p hq)) hpw'.2
      (fun q hq => hlt q (List.mem_cons_of_mem p hq)) hstep

/-- The final flush keeps boundary membership and strict ordering. -/
theorem flushChunks_boundaries (content : JStr) (ps : List Para)
    (cur : Option (Nat × Nat × Int)) (chunks : List TextChunk)
    (hinv : CInv ps [] cur chunks) :
    (∀ c ∈ flushChunks content (cur, chunks),
      (∃ p ∈ ps, c.startOffset = p.start) ∧ (∃ p ∈ ps, c.endOffset = p.stop)) ∧
    List.Pairwise (fun a b => a.startOffset < b.startOffset)
      (flushChunks content (cur, chunks)) := by
  obtain ⟨hcb, hcpw, hcur⟩ := hinv
  cases cur with
  | none => exact ⟨hcb, hcpw⟩
  | some t =>
    obtain ⟨s0, e0, l0⟩ := t
    obtain ⟨hs, he, hse, hl, hblt, _⟩ := hcur
    have hfl : flushChunks content (some (s0, e0, l0), chunks)
        = chunks ++ [⟨jsSlice content s0 e0, s0, e0⟩] := rfl
    rw [hfl]
    constructor
    · intro c hc
      rcases List.mem_append.mp hc with h1 | h2
      · exact hcb c h1
      · rw [List.mem_singleton.mp h2]
        exact ⟨hs, he⟩
    · rw [List.pairwise_append]
      refine ⟨hcpw, List.pairwise_singleton _ _, ?_⟩
      intro a ha b hb
      rw [List.mem_singleton.mp hb]
      show a.startOffset < s0
      exact hblt a ha

/-- Every chunk of paragraph-mode `splitIntoChunks` starts at some paragraph's
start and ends at some paragraph's end, and the chunk start offsets strictly
increase. -/
theorem splitParagraphMode_boundaries (cs : Nat) (content : JStr) :
    (∀ c ∈ splitParagraphMode cs content,
      (∃ p ∈ paragraphsOf content, c.startOffset = p.start) ∧
      (∃ p ∈ paragraphsOf content, c.endOffset = p.stop)) ∧
    List.Pairwise (fun a b => a.startOffset < b.startOffset)
      (splitParagraphMode cs content) := by
  obtain ⟨hpw, hlt⟩ := paragraphsOf_wf content
  have hinit : CInv (paragraphsOf content) (paragraphsOf content) none [] :=
    ⟨(fun c hc => nomatch hc), List.Pairwise.nil, rfl⟩
  have hfold := chunkFold_inv content cs (paragraphsOf content) (paragraphsOf content)
    none [] (fun q hq => hq) hpw (fun q hq => hlt q hq) hinit
  exact flushChunks_boundaries content (paragraphsOf content)
    ((paragraphsOf content).foldl (chunkStep content cs) (none, [])).1
    ((paragraphsOf content).foldl (chunkStep content cs) (none, [])).2 hfold

/-- One `chunkStep` never removes an already-emitted chunk. -/
theorem chunkStep_chunks_mono (content : JStr) (cs : Nat)
    (cur : Option (Nat × Nat × Int)) (chunks : List TextChunk) (p : Para)
    (c : TextChunk) (hc : c ∈ chunks) :
    c ∈ (chunkStep content cs (cur, chunks) p).2 := by
  by_cases hnb : (jsTrim (jsSlice content p.start p.stop)).length = 0
  · rw [chunkStep_blank content cs cur chunks p hnb]
    exact hc
  · cases cur with
    | none =>
      rw [chunkStep_none content cs chunks p hnb]
      exact hc
    | some t =>
      obtain ⟨c0s, c0e, c0l⟩ := t
      by_cases hcond : (cs : Int) < c0l + ((p.start : Int) - (c0e : Int))
          + ((jsSlice content p.start p.stop).length : Int) ∧ (0 : Int) < c0l
      · rw [chunkStep_close content cs c0s c0e c0l chunks p hnb hcond]
        exact List.mem_append_left _ hc
      · rw [chunkStep_extend content cs c0s c0e c0l chunks p hnb hcond]
        exact hc

/-- The fold never removes an already-emitted chunk. -/
theorem chunkFold_chunks_mono (content : JStr) (cs : Nat) :
    ∀ (rem : List Para) (cur : Option (Nat × Nat × Int)) (chunks : List TextChunk)
    (c : TextChunk), c ∈ chunks →
    c ∈ (rem.foldl (chunkStep content cs) (cur, chunks)).2 := by
  intro rem
  induction rem with
  | nil =>
    intro cur chunks c hc
    exact hc
  | cons p t ih =>
    intro cur chunks c hc
    rw [List.foldl_cons]
    exact ih (chunkStep content cs (cur, chunks) p).1
      (chunkStep content cs (cur, chunks) p).2 c
      (chunkStep_chunks_mono content cs cur chunks p c hc)

/-- The flush keeps every already-emitted chunk. -/
theorem chunks_subset_flush (content : JStr)
    (σ : Option (Nat × Nat × Int) × List TextChunk) (c : TextChunk) (hc : c ∈ σ.2) :
    c ∈ flushChunks content σ := by
  obtain ⟨cur, chunks⟩ := σ
  cases cur with
  | none => exact hc
  | some t =>
    obtain ⟨s0, e0, l0⟩ := t
    exact List.mem_append_left _ hc

/-- A current chunk that already exceeds the budget is eventually emitted with
exactly its own boundaries. -/
theorem cur_oversized_flushed (content : JStr) (cs : Nat) :
    ∀ (rem : List Para) (chunks : List TextChunk) (s0 e0 : Nat) (l0 : Int),
    (cs : Int) < l0 → (∀ q ∈ rem, e0 ≤ q.start) →
    ∃ c ∈ flushChunks content
      (rem.foldl (chunkStep content cs) (some (s0, e0, l0), chunks)),
      c.startOffset = s0 ∧ c.endOffset = e0 := by
  intro rem
  induction rem with
  | nil =>
    intro chunks s0 e0 l0 _ _
    rw [List.foldl_nil]
    exact ⟨⟨jsSlice content s0 e0, s0, e0⟩,
      List.mem_append_right _ (List.mem_singleton_self _), rfl, rfl⟩
  | cons q t ih =>
    intro chunks s0 e0 l0 hl hrem
    rw [List.foldl_cons]
    by_cases hnb : (jsTrim (jsSlice content q.start q.stop)).length = 0
    · rw [chunkStep_blank content cs (some (s0, e0, l0)) chunks q hnb]
      exact ih chunks s0 e0 l0 hl (fun r hr => hrem r (List.mem_cons_of_mem q hr))
    · have hgap : e0 ≤ q.start := hrem q (List.mem_cons_self q t)
      have hlen : 1 ≤ ((jsSlice content q.start q.stop).length : Int) := by
        have := jsTrim_len_pos hnb
        exact_mod_cast this
      have hcond : (cs : Int) < l0 + ((q.start : Int) - (e0 : Int))
          + ((jsSlice content q.start q.stop).length : Int) ∧ (0 : Int) < l0 := by
        constructor <;> omega
      rw [chunkStep_close content cs s0 e0 l0 chunks q hnb hcond]
      refine ⟨⟨jsSlice content s0 e0, s0, e0⟩, ?_, rfl, rfl⟩
      apply chunks_subset_flush
      exact chunkFold_chunks_mono content cs t _ _ _
        (List.mem_append_right _ (List.mem_singleton_self _))

/-- An oversized non-blank paragraph in the remaining list ends up as a chunk
with exactly its own boundaries. -/
theorem oversized_in_fold (content : JStr) (cs : Nat) (ps : List Para) :
    ∀ (rem : List Para) (cur : Option (Nat × Nat × Int)) (chunks : List TextChunk),
    (∀ q ∈ rem, q ∈ ps) → List.Pairwise paraSep rem → (∀ q ∈ rem, q.start < q.stop) →
    CInv ps rem cur chunks →
    ∀ p ∈ rem, (jsTrim (jsSlice content p.start p.stop)).length ≠ 0 →
    cs < (jsSlice content p.start p.stop).length →
    ∃ c ∈ flushChunks content (rem.foldl (chunkStep content cs) (cur, chunks)),
      c.startOffset = p.start ∧ c.endOffset = p.stop := by
  intro rem
  induction rem with
  | nil =>
    intro cur chunks _ _ _ _ p hp
    cases hp
  | cons q t ih =>
    intro cur chunks hsub hpw hlt hinv p hp hnb hbig
    have hpw' := List.pairwise_cons.mp hpw
    rw [List.foldl_cons]
    rcases List.mem_cons.mp hp with hpq | hp'
    · subst hpq
      have hbig' : (cs : Int) < ((jsSlice content p.start p.stop).length : Int) := by
        exact_mod_cast hbig
      cases cur with
      | none =>
        rw [chunkStep_none content cs chunks p hnb]
        exact cur_oversized_flushed content cs t chunks p.start p.stop _ hbig'
          (fun r hr => le_of_lt (hpw'.1 r hr))
      | some tt =>
        obtain ⟨c0s, c0e, c0l⟩ := tt
        obtain ⟨_, _, hcur⟩ := hinv
        obtain ⟨hs, he, hse, hl1, hblt, hrc⟩ := hcur
        have hgap : c0e ≤ p.start := hrc p (List.mem_cons_self p t)
        have hcond : (cs : Int) < c0l + ((p.start : Int) - (c0e : Int))
            + ((jsSlice content p.start p.stop).length : Int) ∧ (0 : Int) < c0l := by
          constructor <;> omega
        rw [chunkStep_close content cs c0s c0e c0l chunks p hnb hcond]
        exact cur_oversized_flushed content cs t _ p.start p.stop _ hbig'
          (fun r hr => le_of_lt (hpw'.1 r hr))
    · have hstep := chunkStep_inv content cs ps q t cur chunks
        (hsub q (List.mem_cons_self q t)) (hlt q (List.mem_cons_self q t))
        (fun r hr => hpw'.1 r hr) hinv
      exact ih (chunkStep content cs (cur, chunks) q).1
        (chunkStep content cs (cur, chunks) q).2
        (fun r hr => hsub r (List.mem_cons_of_mem q hr)) hpw'.2
        (fun r hr => hlt r (List.mem_cons_of_mem q hr)) hstep p hp' hnb hbig

/-- C7: in paragraph mode, no chunk boundary falls strictly inside any
paragraph of the code's paragraph decomposition (chunk starts and ends are
paragraph starts and ends, and paragraphs are disjoint), chunk start offsets
strictly increase (so boundaries pin down at most one chunk), and a non-blank
paragraph longer than `chunkSize` is emitted as a chunk with exactly its own
boundaries — neither split further nor dropped. -/
theorem splitParagraph_spec (cs : Nat) (content : JStr) (_hcs : 0 < cs) :
    (∀ c ∈ splitParagraphMode cs content, ∀ p ∈ paragraphsOf content,
      ¬ (p.start < c.startOffset ∧ c.startOffset < p.stop) ∧
      ¬ (p.start < c.endOffset ∧ c.endOffset < p.stop)) ∧
    List.Pairwise (fun a b => a.startOffset < b.startOffset)
      (splitParagraphMode cs content) ∧
    (∀ p ∈ paragraphsOf content,
      (jsTrim (jsSlice content p.start p.stop)).length ≠ 0 →
      cs < (jsSlice content p.start p.stop).length →
      ∃ c ∈ splitParagraphMode cs content,
        c.startOffset = p.start ∧ c.endOffset = p.stop) := by
  obtain ⟨hpw, hlt⟩ := paragraphsOf_wf content
  obtain ⟨hbound, hinc⟩ := splitParagraphMode_boundaries cs content
  refine ⟨?_, hinc, ?_⟩
  · intro c hc p hp
    obtain ⟨⟨q1, hq1, hcs1⟩, ⟨q2, hq2, hcs2⟩⟩ := hbound c hc
    constructor
    · rw [hcs1]
      intro hcon
      rcases pairwise_mem_rel hpw hq1 hp with rfl | h | h
      · exact absurd hcon.1 (lt_irrefl _)
      · have h' : q1.stop < p.start := h
        have hq1lt : q1.start < q1.stop := hlt q1 hq1
        omega
      · have h' : p.stop < q1.start := h
        omega
    · rw [hcs2]
      intro hcon
      rcases pairwise_mem_rel hpw hq2 hp with rfl | h | h
      · exact absurd hcon.2 (lt_irrefl _)
      · have h' : q2.stop < p.start := h
        omega
      · have h' : p.stop < q2.start := h
        have hq2lt : q2.start < q2.stop := hlt q2 hq2
        omega
  · intro p hp hnb hbig
    have hinit : CInv (paragraphsOf content) (paragraphsOf content) none [] :=
      ⟨(fun c hc => nomatch hc), List.Pairwise.nil, rfl⟩
    exact oversized_in_fold content cs (paragraphsOf content) (paragraphsOf content)
      none [] (fun q hq => hq) hpw (fun q hq => hlt q hq) hinit p hp hnb hbig

/-- Witness for C7: the single 4-character paragraph of `abcd` with
`chunkSize = 1` is oversized and appears as exactly one chunk. -/
theorem splitParagraph_spec_witness :
    (∀ c ∈ splitParagraphMode 1 ("abcd".toList), ∀ p ∈ paragraphsOf ("abcd".toList),
      ¬ (p.start < c.startOffset ∧ c.startOffset < p.stop) ∧
      ¬ (p.start < c.endOffset ∧ c.endOffset < p.stop)) ∧
    List.Pairwise (fun a b => a.startOffset < b.startOffset)
      (splitParagraphMode 1 ("abcd".toList)) ∧
    (∀ p ∈ paragraphsOf ("abcd".toList),
      (jsTrim (jsSlice ("abcd".toList) p.start p.stop)).length ≠ 0 →
      1 < (jsSlice ("abcd".toList) p.start p.stop).length →
      ∃ c ∈ splitParagraphMode 1 ("abcd".toList),
        c.startOffset = p.start ∧ c.endOffset = p.stop) :=
  splitParagraph_spec 1 ("abcd".toList) (by decide)

end VectorSearch
